import Mathlib

/-!
Verification of the Anomaly Detection Ensemble Engine
(`anomaly_detection.py` and its duplicate
`uidai_analytics/analytics/services/anomaly.py`).

Series values are embedded as rationals.  The detectors divide by
statistics that can be zero, and the Python/NumPy code then produces IEEE
special values (`inf` when a nonzero float is divided by zero, `nan` for
`0.0/0.0`); comparisons against thresholds treat `nan` as not-greater and
`inf` as greater.  The type `FVal` models exactly the values that can
reach a threshold comparison or a stored statistic.

The z-score detector divides by the population standard deviation, an
irrational square root.  No downstream behaviour depends on the numeric
value of that root beyond the comparisons modelled here, so the pipeline
is parameterised by the square-root function `sqrtFn`; every theorem holds
for an arbitrary `sqrtFn`, hence in particular for the true square root
used by `scipy`.
-/

/-- Extended value: a finite rational, positive infinity, or NaN.
Models the result of the float divisions in the detectors (always used
under `np.abs`, so the infinite case is `+inf`). -/
inductive FVal where
  | fin (q : ℚ)
  | inf
  | nan
deriving DecidableEq, Repr

/-- `|num / den|` with IEEE semantics: division by zero of a nonzero
numerator gives `inf` (after `abs`), `0/0` gives `nan`. -/
def absDivExt (num den : ℚ) : FVal :=
  if den = 0 then (if num = 0 then FVal.nan else FVal.inf) else FVal.fin |num / den|

/-- Float comparison `v > t` for a finite threshold `t`:
`nan > t` is false, `inf > t` is true. -/
def FVal.gtQ : FVal → ℚ → Bool
  | .fin q, t => decide (t < q)
  | .inf, _ => true
  | .nan, _ => false

/-- Whether an extended value is an ordinary finite float. -/
def FVal.isFiniteVal : FVal → Bool
  | .fin _ => true
  | _ => false

/-- `series.mean()`: arithmetic mean of the values. -/
def seriesMean (s : List ℚ) : ℚ := s.sum / (s.length : ℚ)

/-- Population variance (`scipy.stats.zscore` uses `ddof = 0`). -/
def popVar (s : List ℚ) : ℚ :=
  ((s.map (fun x => (x - seriesMean s) ^ 2)).sum) / (s.length : ℚ)

/-- The three detection methods of the ensemble. -/
inductive Method where
  | z_score
  | iqr
  | rolling_deviation
deriving DecidableEq, Repr

/-- Finding of the Z-Score detector: `{date, value, z_score}`.
Timestamps are embedded as positions in the series. -/
structure ZFinding where
  idx : ℕ
  value : ℚ
  z : FVal
deriving DecidableEq, Repr

/-- Finding of the IQR detector: `{date, value, lower_bound, upper_bound}`. -/
structure IqrFinding where
  idx : ℕ
  value : ℚ
  lowerBound : ℚ
  upperBound : ℚ
deriving DecidableEq, Repr

/-- Finding of the Rolling-Deviation detector:
`{date, value, rolling_mean, deviation_pct}`. -/
structure RollFinding where
  idx : ℕ
  value : ℚ
  rollingMean : ℚ
  deviationPct : FVal
deriving DecidableEq, Repr

/-- `z_score_anomalies(data_series, threshold=3)`: if the series has fewer
than 3 points return `[]`; otherwise flag every point whose absolute
z-score `|(x - mean)/std|` exceeds the threshold, where
`std = sqrtFn (popVar s)` stands for the population standard deviation. -/
def z_score_anomalies (sqrtFn : ℚ → ℚ) (s : List ℚ) (threshold : ℚ) : List ZFinding :=
  if s.length < 3 then [] else
    s.enum.filterMap fun p =>
      let z := absDivExt (p.2 - seriesMean s) (sqrtFn (popVar s))
      if z.gtQ threshold then some ⟨p.1, p.2, z⟩ else none

/-- Insert into an ascending-sorted list (helper for the quantile). -/
def insertSorted (x : ℚ) : List ℚ → List ℚ
  | [] => [x]
  | y :: ys => if x ≤ y then x :: y :: ys else y :: insertSorted x ys

/-- Ascending sort of the values (helper for the quantile). -/
def sortAsc (l : List ℚ) : List ℚ := l.foldr insertSorted []

/-- `Series.quantile(q)` with pandas' default linear interpolation:
position `q * (n - 1)` between the order statistics. -/
def quantile (s : List ℚ) (q : ℚ) : ℚ :=
  let sorted := sortAsc s
  let pos : ℚ := q * ((s.length : ℚ) - 1)
  let lo : ℕ := (Int.floor pos).toNat
  let frac : ℚ := pos - (lo : ℚ)
  let vlo := sorted.getD lo 0
  let vhi := sorted.getD (lo + 1) vlo
  vlo + frac * (vhi - vlo)

/-- `iqr_outliers(data_series)`: if the series has fewer than 5 points
return `[]`; otherwise flag every point strictly outside
`[Q1 - 1.5*IQR, Q3 + 1.5*IQR]`. -/
def iqr_outliers (s : List ℚ) : List IqrFinding :=
  if s.length < 5 then [] else
    let q1 := quantile s (1 / 4)
    let q3 := quantile s (3 / 4)
    let iqr := q3 - q1
    let lb := q1 - 3 / 2 * iqr
    let ub := q3 + 3 / 2 * iqr
    s.enum.filterMap fun p =>
      if p.2 < lb ∨ p.2 > ub then some ⟨p.1, p.2, lb, ub⟩ else none

/-- The trailing rolling mean `data_series.rolling(window=w).mean()` at
position `i`: the mean of the `w` points ending at and including `i`
(pandas windows are inclusive of the current row). -/
def windowMean (s : List ℚ) (w i : ℕ) : ℚ :=
  (((s.take (i + 1)).drop (i + 1 - w)).sum) / (w : ℚ)

/-- `rolling_average_deviation(data_series, window=30)`: if the series is
shorter than `w` return `[]`; otherwise skip the first `w` positions
(`deviation_pct.index[window:]`) and flag every later position whose
deviation `|(x - rolling_mean)/rolling_mean|` exceeds `0.5`. -/
def rolling_average_deviation (s : List ℚ) (w : ℕ) : List RollFinding :=
  if s.length < w then [] else
    s.enum.filterMap fun p =>
      if p.1 < w then none else
        let m := windowMean s w p.1
        let dev := absDivExt (p.2 - m) m
        if dev.gtQ (1 / 2) then some ⟨p.1, p.2, m, dev⟩ else none

/-- One entry fed to the aggregation loop (`add_finding`). -/
inductive Entry where
  | z (f : ZFinding)
  | iqr (f : IqrFinding)
  | roll (f : RollFinding)
deriving DecidableEq, Repr

/-- The timestamp key of an entry. -/
def Entry.idx : Entry → ℕ
  | .z f => f.idx
  | .iqr f => f.idx
  | .roll f => f.idx

/-- The shared value of an entry. -/
def Entry.value : Entry → ℚ
  | .z f => f.value
  | .iqr f => f.value
  | .roll f => f.value

/-- The method tag of an entry (`entry['method']`). -/
def Entry.method : Entry → Method
  | .z _ => Method.z_score
  | .iqr _ => Method.iqr
  | .roll _ => Method.rolling_deviation

/-- `findings[date_key]`: the aggregated candidate for one timestamp,
with the appended `methods` list and one `details` slot per method. -/
structure Candidate where
  idx : ℕ
  value : ℚ
  methods : List Method
  zDetail : Option ZFinding
  iqrDetail : Option IqrFinding
  rollDetail : Option RollFinding
deriving DecidableEq, Repr

/-- Record an entry into an existing candidate: append the method name
and overwrite the method's detail slot (`details[method] = entry`). -/
def Candidate.record (c : Candidate) (e : Entry) : Candidate :=
  match e with
  | .z f => { c with methods := c.methods ++ [Method.z_score], zDetail := some f }
  | .iqr f => { c with methods := c.methods ++ [Method.iqr], iqrDetail := some f }
  | .roll f => { c with methods := c.methods ++ [Method.rolling_deviation], rollDetail := some f }

/-- Fresh candidate created on first sight of a timestamp key. -/
def newCandidate (e : Entry) : Candidate :=
  Candidate.record { idx := e.idx, value := e.value, methods := [],
                     zDetail := none, iqrDetail := none, rollDetail := none } e

/-- `add_finding(date_key, entry)` on the insertion-ordered dict,
modelled as an association list keyed by `Candidate.idx`. -/
def addFinding : List Candidate → Entry → List Candidate
  | [], e => [newCandidate e]
  | c :: cs, e => if c.idx = e.idx then c.record e :: cs else c :: addFinding cs e

/-- The aggregation loop: fold all entries into the findings dict. -/
def aggregate (es : List Entry) : List Candidate := es.foldl addFinding []

/-- Direction of a validated anomaly. -/
inductive AnomType where
  | spike
  | drop
deriving DecidableEq, Repr

/-- Direction classification: prefer the rolling-deviation finding's
rolling mean, fall back to the mean of the whole series. -/
def classifyType (s : List ℚ) (c : Candidate) : AnomType :=
  match c.rollDetail with
  | some f => if c.value < f.rollingMean then AnomType.drop else AnomType.spike
  | none => if c.value < seriesMean s then AnomType.drop else AnomType.spike

/-- `min(10.0, z)` on floats: `min(10.0, inf) = 10.0` and
`min(10.0, nan) = 10.0` (Python's `min` keeps the first argument when
the second does not compare below it). -/
def capSeverity : FVal → ℚ
  | .fin q => min 10 q
  | .inf => 10
  | .nan => 10

/-- Severity before rounding: default `5.0`, overridden by the capped
z-score when the Z-Score method fired. -/
def severityOf (c : Candidate) : ℚ :=
  match c.zDetail with
  | some f => capSeverity f.z
  | none => 5

/-- `round(x, 2)`: rounding to 2 decimal places. -/
def round2 (q : ℚ) : ℚ := ((round (100 * q) : ℤ) : ℚ) / 100

/-- The final output record of the aggregator. -/
structure ValidatedAnomaly where
  idx : ℕ
  metricName : String
  anomalyValue : ℚ
  severityScore : ℚ
  anomalyType : AnomType
  detectionMethods : List Method
deriving DecidableEq, Repr

/-- Build the output record for one surviving candidate. -/
def buildAnomaly (s : List ℚ) (c : Candidate) : ValidatedAnomaly :=
  { idx := c.idx
    metricName := "daily_enrollments"
    anomalyValue := c.value
    severityScore := round2 (severityOf c)
    anomalyType := classifyType s c
    detectionMethods := c.methods }

/-- The entries fed to the aggregation loop, in the source's order:
all z-score findings, then all IQR findings, then all rolling findings. -/
def pipelineEntries (sqrtFn : ℚ → ℚ) (s : List ℚ) : List Entry :=
  (z_score_anomalies sqrtFn s 3).map Entry.z
    ++ (iqr_outliers s).map Entry.iqr
    ++ (rolling_average_deviation s 30).map Entry.roll

/-- The detection-and-aggregation body of `comprehensive_anomaly_report`:
run the three detectors, aggregate by timestamp, and keep exactly the
candidates whose `methods` list has length at least 2. -/
def anomalyReportOn (sqrtFn : ℚ → ℚ) (s : List ℚ) : List ValidatedAnomaly :=
  (aggregate (pipelineEntries sqrtFn s)).filterMap fun c =>
    if 2 ≤ c.methods.length then some (buildAnomaly s c) else none

/-- A partition key: the optional `state` and `district` filters. -/
structure Partition where
  state : Option String
  district : Option String
deriving DecidableEq, Repr

/-- `get_time_series_data`: the Provider fetch wrapped in
`try/except`; a raised fetch error is caught (and logged) and yields an
empty series. -/
def get_time_series_data (provider : Partition → Except String (List ℚ))
    (p : Partition) : List ℚ :=
  match provider p with
  | Except.ok s => s
  | Except.error _ => []

/-- `comprehensive_anomaly_report`: fetch the series for the partition;
an empty frame short-circuits to `[]`, otherwise run the ensemble. -/
def comprehensive_anomaly_report (sqrtFn : ℚ → ℚ)
    (provider : Partition → Except String (List ℚ)) (p : Partition) :
    List ValidatedAnomaly :=
  let s := get_time_series_data provider p
  if s.isEmpty then [] else anomalyReportOn sqrtFn s

/-- `detect_anomalies_daily`: run the report for each partition and
extend the accumulated alert list. -/
def detect_anomalies_daily (sqrtFn : ℚ → ℚ)
    (provider : Partition → Except String (List ℚ)) (parts : List Partition) :
    List ValidatedAnomaly :=
  parts.foldl (fun acc p => acc ++ comprehensive_anomaly_report sqrtFn provider p) []

/-- The Rolling-Deviation detector transcribed from the spec's words
(section 4.3): the trailing mean at a position is taken over the
`window` points strictly preceding it, undefined for the first `window`
positions; a zero rolling mean is excluded from flagging. -/
def rollingDeviationSpec (s : List ℚ) (w : ℕ) : List RollFinding :=
  if s.length < w then [] else
    s.enum.filterMap fun p =>
      if p.1 < w then none else
        let m := ((s.drop (p.1 - w)).take w).sum / (w : ℚ)
        if m = 0 then none else
          let dev := absDivExt (p.2 - m) m
          if dev.gtQ (1 / 2) then some ⟨p.1, p.2, m, dev⟩ else none

/-- The distinct methods that flagged position `i`, in the pipeline's
method order. -/
def firedMethods (sqrtFn : ℚ → ℚ) (s : List ℚ) (i : ℕ) : List Method :=
  (if (z_score_anomalies sqrtFn s 3).any (fun f => f.idx == i) then [Method.z_score] else [])
    ++ (if (iqr_outliers s).any (fun f => f.idx == i) then [Method.iqr] else [])
    ++ (if (rolling_average_deviation s 30).any (fun f => f.idx == i) then [Method.rolling_deviation] else [])

/-! ### Bookkeeping for the aggregation loop -/

/-- All entries carrying the given timestamp key, in order. -/
def entriesAt (es : List Entry) (i : ℕ) : List Entry :=
  es.filter (fun e => e.idx == i)

/-- The z-score findings among the entries with the given key. -/
def zAt (es : List Entry) (i : ℕ) : List ZFinding :=
  es.filterMap fun e => match e with
    | .z f => if f.idx = i then some f else none
    | _ => none

/-- The IQR findings among the entries with the given key. -/
def iqrAt (es : List Entry) (i : ℕ) : List IqrFinding :=
  es.filterMap fun e => match e with
    | .iqr f => if f.idx = i then some f else none
    | _ => none

/-- The rolling-deviation findings among the entries with the given key. -/
def rollAt (es : List Entry) (i : ℕ) : List RollFinding :=
  es.filterMap fun e => match e with
    | .roll f => if f.idx = i then some f else none
    | _ => none

/-- What the findings dict stores for one key after processing `done`:
the appended method list, the first entry's value, and for each detail
slot the last write. -/
def CandOk (done : List Entry) (c : Candidate) : Prop :=
  entriesAt done c.idx ≠ [] ∧
  c.methods = (entriesAt done c.idx).map Entry.method ∧
  c.value = ((entriesAt done c.idx).head?.elim 0 Entry.value) ∧
  c.zDetail = (zAt done c.idx).getLast? ∧
  c.iqrDetail = (iqrAt done c.idx).getLast? ∧
  c.rollDetail = (rollAt done c.idx).getLast?

/-- Invariant of the aggregation loop relating the processed prefix of
the entry list to the candidate association list. -/
def AggInv (done : List Entry) (cs : List Candidate) : Prop :=
  ((cs.map Candidate.idx).Nodup) ∧
  (∀ c ∈ cs, CandOk done c) ∧
  (∀ i, i ∈ done.map Entry.idx → i ∈ cs.map Candidate.idx)

theorem entriesAt_append (l₁ l₂ : List Entry) (i : ℕ) :
    entriesAt (l₁ ++ l₂) i = entriesAt l₁ i ++ entriesAt l₂ i :=
  List.filter_append _ _

theorem zAt_append (l₁ l₂ : List Entry) (i : ℕ) :
    zAt (l₁ ++ l₂) i = zAt l₁ i ++ zAt l₂ i :=
  List.filterMap_append _ _ _

theorem iqrAt_append (l₁ l₂ : List Entry) (i : ℕ) :
    iqrAt (l₁ ++ l₂) i = iqrAt l₁ i ++ iqrAt l₂ i :=
  List.filterMap_append _ _ _

theorem rollAt_append (l₁ l₂ : List Entry) (i : ℕ) :
    rollAt (l₁ ++ l₂) i = rollAt l₁ i ++ rollAt l₂ i :=
  List.filterMap_append _ _ _

theorem entriesAt_singleton (e : Entry) (i : ℕ) :
    entriesAt [e] i = if e.idx = i then [e] else [] := by
  by_cases h : e.idx = i <;> simp [entriesAt, h]

theorem zAt_singleton_z (f : ZFinding) (i : ℕ) :
    zAt [Entry.z f] i = if f.idx = i then [f] else [] := by
  by_cases h : f.idx = i <;> simp [zAt, h]

theorem zAt_singleton_iqr (f : IqrFinding) (i : ℕ) : zAt [Entry.iqr f] i = [] := by
  simp [zAt]

theorem zAt_singleton_roll (f : RollFinding) (i : ℕ) : zAt [Entry.roll f] i = [] := by
  simp [zAt]

theorem iqrAt_singleton_iqr (f : IqrFinding) (i : ℕ) :
    iqrAt [Entry.iqr f] i = if f.idx = i then [f] else [] := by
  by_cases h : f.idx = i <;> simp [iqrAt, h]

theorem iqrAt_singleton_z (f : ZFinding) (i : ℕ) : iqrAt [Entry.z f] i = [] := by
  simp [iqrAt]

theorem iqrAt_singleton_roll (f : RollFinding) (i : ℕ) : iqrAt [Entry.roll f] i = [] := by
  simp [iqrAt]

theorem rollAt_singleton_roll (f : RollFinding) (i : ℕ) :
    rollAt [Entry.roll f] i = if f.idx = i then [f] else [] := by
  by_cases h : f.idx = i <;> simp [rollAt, h]

theorem rollAt_singleton_z (f : ZFinding) (i : ℕ) : rollAt [Entry.z f] i = [] := by
  simp [rollAt]

theorem rollAt_singleton_iqr (f : IqrFinding) (i : ℕ) : rollAt [Entry.iqr f] i = [] := by
  simp [rollAt]

theorem entriesAt_eq_nil {es : List Entry} {i : ℕ} (h : i ∉ es.map Entry.idx) :
    entriesAt es i = [] := by
  rw [entriesAt, List.filter_eq_nil_iff]
  intro e he
  simp only [beq_iff_eq]
  exact fun hidx => h (List.mem_map.mpr ⟨e, he, hidx⟩)

theorem zAt_eq_nil {es : List Entry} {i : ℕ} (h : i ∉ es.map Entry.idx) :
    zAt es i = [] := by
  rw [zAt, List.filterMap_eq_nil_iff]
  intro e he
  cases e with
  | z f =>
    simp only
    exact if_neg (fun hidx => h (List.mem_map.mpr ⟨Entry.z f, he, hidx⟩))
  | iqr f => rfl
  | roll f => rfl

theorem iqrAt_eq_nil {es : List Entry} {i : ℕ} (h : i ∉ es.map Entry.idx) :
    iqrAt es i = [] := by
  rw [iqrAt, List.filterMap_eq_nil_iff]
  intro e he
  cases e with
  | iqr f =>
    simp only
    exact if_neg (fun hidx => h (List.mem_map.mpr ⟨Entry.iqr f, he, hidx⟩))
  | z f => rfl
  | roll f => rfl

theorem rollAt_eq_nil {es : List Entry} {i : ℕ} (h : i ∉ es.map Entry.idx) :
    rollAt es i = [] := by
  rw [rollAt, List.filterMap_eq_nil_iff]
  intro e he
  cases e with
  | roll f =>
    simp only
    exact if_neg (fun hidx => h (List.mem_map.mpr ⟨Entry.roll f, he, hidx⟩))
  | z f => rfl
  | iqr f => rfl

theorem mem_idx_iff_entriesAt_ne_nil (es : List Entry) (i : ℕ) :
    i ∈ es.map Entry.idx ↔ entriesAt es i ≠ [] := by
  constructor
  · intro h hnil
    obtain ⟨e, he, hidx⟩ := List.mem_map.mp h
    have hmem : e ∈ entriesAt es i :=
      List.mem_filter.mpr ⟨he, by simp [hidx]⟩
    rw [hnil] at hmem
    exact List.not_mem_nil e hmem
  · intro h
    by_contra hc
    exact h (entriesAt_eq_nil hc)

theorem record_idx (c : Candidate) (e : Entry) : (c.record e).idx = c.idx := by
  cases e <;> rfl

theorem record_value (c : Candidate) (e : Entry) : (c.record e).value = c.value := by
  cases e <;> rfl

theorem newCandidate_idx (e : Entry) : (newCandidate e).idx = e.idx := by
  cases e <;> rfl

theorem addFinding_cases (cs : List Candidate) (e : Entry) :
    (e.idx ∉ cs.map Candidate.idx ∧ addFinding cs e = cs ++ [newCandidate e]) ∨
    (∃ pre c post, cs = pre ++ c :: post ∧ c.idx = e.idx ∧
      e.idx ∉ pre.map Candidate.idx ∧
      addFinding cs e = pre ++ c.record e :: post) := by
  induction cs with
  | nil => left; exact ⟨by simp, rfl⟩
  | cons c cs ih =>
    by_cases h : c.idx = e.idx
    · right
      exact ⟨[], c, cs, by simp, h, by simp, by simp [addFinding, h]⟩
    · rcases ih with ⟨hnm, heq⟩ | ⟨pre, c', post, hcs, hcidx, hpre, heq⟩
      · left
        refine ⟨?_, by simp [addFinding, h, heq]⟩
        simp only [List.map_cons, List.mem_cons]
        rintro (hh | hh)
        · exact h hh.symm
        · exact hnm hh
      · right
        refine ⟨c :: pre, c', post, by simp [hcs], hcidx, ?_, by simp [addFinding, h, heq]⟩
        simp only [List.map_cons, List.mem_cons]
        rintro (hh | hh)
        · exact h hh.symm
        · exact hpre hh

theorem candOk_extend_ne {done : List Entry} {c : Candidate} (e : Entry)
    (h : CandOk done c) (hne : c.idx ≠ e.idx) : CandOk (done ++ [e]) c := by
  obtain ⟨h0, h1, h2, h3, h4, h5⟩ := h
  have hee : entriesAt (done ++ [e]) c.idx = entriesAt done c.idx := by
    rw [entriesAt_append, entriesAt_singleton, if_neg (fun hh => hne hh.symm),
      List.append_nil]
  have hz : zAt (done ++ [e]) c.idx = zAt done c.idx := by
    rw [zAt_append]
    cases e with
    | z f => rw [zAt_singleton_z, if_neg (fun hh => hne hh.symm), List.append_nil]
    | iqr f => rw [zAt_singleton_iqr, List.append_nil]
    | roll f => rw [zAt_singleton_roll, List.append_nil]
  have hi : iqrAt (done ++ [e]) c.idx = iqrAt done c.idx := by
    rw [iqrAt_append]
    cases e with
    | iqr f => rw [iqrAt_singleton_iqr, if_neg (fun hh => hne hh.symm), List.append_nil]
    | z f => rw [iqrAt_singleton_z, List.append_nil]
    | roll f => rw [iqrAt_singleton_roll, List.append_nil]
  have hr : rollAt (done ++ [e]) c.idx = rollAt done c.idx := by
    rw [rollAt_append]
    cases e with
    | roll f => rw [rollAt_singleton_roll, if_neg (fun hh => hne hh.symm), List.append_nil]
    | z f => rw [rollAt_singleton_z, List.append_nil]
    | iqr f => rw [rollAt_singleton_iqr, List.append_nil]
  exact ⟨hee ▸ h0, hee ▸ h1, hee ▸ h2, hz ▸ h3, hi ▸ h4, hr ▸ h5⟩

theorem candOk_extend_eq {done : List Entry} {c : Candidate} (e : Entry)
    (h : CandOk done c) (heq : c.idx = e.idx) : CandOk (done ++ [e]) (c.record e) := by
  obtain ⟨h0, h1, h2, h3, h4, h5⟩ := h
  have hee : entriesAt (done ++ [e]) c.idx = entriesAt done c.idx ++ [e] := by
    rw [entriesAt_append, entriesAt_singleton, if_pos heq.symm]
  have hmeth : (entriesAt done c.idx ++ [e]).map Entry.method
      = (entriesAt done c.idx).map Entry.method ++ [e.method] := by
    rw [List.map_append]; rfl
  have hhead : (entriesAt done c.idx ++ [e]).head? = (entriesAt done c.idx).head? :=
    List.head?_append_of_ne_nil _ h0
  cases e with
  | z f =>
    have hz : zAt (done ++ [Entry.z f]) c.idx = zAt done c.idx ++ [f] := by
      rw [zAt_append, zAt_singleton_z, if_pos (show f.idx = c.idx from heq.symm)]
    have hi : iqrAt (done ++ [Entry.z f]) c.idx = iqrAt done c.idx := by
      rw [iqrAt_append, iqrAt_singleton_z, List.append_nil]
    have hr : rollAt (done ++ [Entry.z f]) c.idx = rollAt done c.idx := by
      rw [rollAt_append, rollAt_singleton_z, List.append_nil]
    refine ⟨?_, ?_, ?_, ?_, ?_, ?_⟩
    · show entriesAt (done ++ [Entry.z f]) (c.record (Entry.z f)).idx ≠ []
      rw [record_idx, hee]; simp
    · show (c.record (Entry.z f)).methods = _
      rw [record_idx, hee, hmeth, ← h1]; rfl
    · show (c.record (Entry.z f)).value = _
      rw [record_idx, record_value, hee, hhead, h2]
    · show (c.record (Entry.z f)).zDetail = _
      rw [record_idx, hz, List.getLast?_concat]; rfl
    · show (c.record (Entry.z f)).iqrDetail = _
      rw [record_idx, hi]; exact h4
    · show (c.record (Entry.z f)).rollDetail = _
      rw [record_idx, hr]; exact h5
  | iqr f =>
    have hz : zAt (done ++ [Entry.iqr f]) c.idx = zAt done c.idx := by
      rw [zAt_append, zAt_singleton_iqr, List.append_nil]
    have hi : iqrAt (done ++ [Entry.iqr f]) c.idx = iqrAt done c.idx ++ [f] := by
      rw [iqrAt_append, iqrAt_singleton_iqr, if_pos (show f.idx = c.idx from heq.symm)]
    have hr : rollAt (done ++ [Entry.iqr f]) c.idx = rollAt done c.idx := by
      rw [rollAt_append, rollAt_singleton_iqr, List.append_nil]
    refine ⟨?_, ?_, ?_, ?_, ?_, ?_⟩
    · show entriesAt (done ++ [Entry.iqr f]) (c.record (Entry.iqr f)).idx ≠ []
      rw [record_idx, hee]; simp
    · show (c.record (Entry.iqr f)).methods = _
      rw [record_idx, hee, hmeth, ← h1]; rfl
    · show (c.record (Entry.iqr f)).value = _
      rw [record_idx, record_value, hee, hhead, h2]
    · show (c.record (Entry.iqr f)).zDetail = _
      rw [record_idx, hz]; exact h3
    · show (c.record (Entry.iqr f)).iqrDetail = _
      rw [record_idx, hi, List.getLast?_concat]; rfl
    · show (c.record (Entry.iqr f)).rollDetail = _
      rw [record_idx, hr]; exact h5
  | roll f =>
    have hz : zAt (done ++ [Entry.roll f]) c.idx = zAt done c.idx := by
      rw [zAt_append, zAt_singleton_roll, List.append_nil]
    have hi : iqrAt (done ++ [Entry.roll f]) c.idx = iqrAt done c.idx := by
      rw [iqrAt_append, iqrAt_singleton_roll, List.append_nil]
    have hr : rollAt (done ++ [Entry.roll f]) c.idx = rollAt done c.idx ++ [f] := by
      rw [rollAt_append, rollAt_singleton_roll, if_pos (show f.idx = c.idx from heq.symm)]
    refine ⟨?_, ?_, ?_, ?_, ?_, ?_⟩
    · show entriesAt (done ++ [Entry.roll f]) (c.record (Entry.roll f)).idx ≠ []
      rw [record_idx, hee]; simp
    · show (c.record (Entry.roll f)).methods = _
      rw [record_idx, hee, hmeth, ← h1]; rfl
    · show (c.record (Entry.roll f)).value = _
      rw [record_idx, record_value, hee, hhead, h2]
    · show (c.record (Entry.roll f)).zDetail = _
      rw [record_idx, hz]; exact h3
    · show (c.record (Entry.roll f)).iqrDetail = _
      rw [record_idx, hi]; exact h4
    · show (c.record (Entry.roll f)).rollDetail = _
      rw [record_idx, hr, List.getLast?_concat]; rfl

theorem candOk_new {done : List Entry} (e : Entry)
    (h : e.idx ∉ done.map Entry.idx) : CandOk (done ++ [e]) (newCandidate e) := by
  have hent : entriesAt done e.idx = [] := entriesAt_eq_nil h
  have hz0 : zAt done e.idx = [] := zAt_eq_nil h
  have hi0 : iqrAt done e.idx = [] := iqrAt_eq_nil h
  have hr0 : rollAt done e.idx = [] := rollAt_eq_nil h
  have hee : entriesAt (done ++ [e]) e.idx = [e] := by
    rw [entriesAt_append, entriesAt_singleton, if_pos rfl, hent, List.nil_append]
  cases e with
  | z f =>
    refine ⟨?_, ?_, ?_, ?_, ?_, ?_⟩
    · show entriesAt (done ++ [Entry.z f]) (newCandidate (Entry.z f)).idx ≠ []
      rw [newCandidate_idx, hee]; simp
    · show (newCandidate (Entry.z f)).methods = _
      rw [newCandidate_idx, hee]; rfl
    · show (newCandidate (Entry.z f)).value = _
      rw [newCandidate_idx, hee]; rfl
    · show (newCandidate (Entry.z f)).zDetail = _
      rw [newCandidate_idx, zAt_append, zAt_singleton_z,
        if_pos (show f.idx = (Entry.z f).idx from rfl), hz0, List.nil_append]
      rfl
    · show (newCandidate (Entry.z f)).iqrDetail = _
      rw [newCandidate_idx, iqrAt_append, iqrAt_singleton_z, hi0, List.nil_append]; rfl
    · show (newCandidate (Entry.z f)).rollDetail = _
      rw [newCandidate_idx, rollAt_append, rollAt_singleton_z, hr0, List.nil_append]; rfl
  | iqr f =>
    refine ⟨?_, ?_, ?_, ?_, ?_, ?_⟩
    · show entriesAt (done ++ [Entry.iqr f]) (newCandidate (Entry.iqr f)).idx ≠ []
      rw [newCandidate_idx, hee]; simp
    · show (newCandidate (Entry.iqr f)).methods = _
      rw [newCandidate_idx, hee]; rfl
    · show (newCandidate (Entry.iqr f)).value = _
      rw [newCandidate_idx, hee]; rfl
    · show (newCandidate (Entry.iqr f)).zDetail = _
      rw [newCandidate_idx, zAt_append, zAt_singleton_iqr, hz0, List.nil_append]; rfl
    · show (newCandidate (Entry.iqr f)).iqrDetail = _
      rw [newCandidate_idx, iqrAt_append, iqrAt_singleton_iqr,
        if_pos (show f.idx = (Entry.iqr f).idx from rfl), hi0, List.nil_append]
      rfl
    · show (newCandidate (Entry.iqr f)).rollDetail = _
      rw [newCandidate_idx, rollAt_append, rollAt_singleton_iqr, hr0, List.nil_append]; rfl
  | roll f =>
    refine ⟨?_, ?_, ?_, ?_, ?_, ?_⟩
    · show entriesAt (done ++ [Entry.roll f]) (newCandidate (Entry.roll f)).idx ≠ []
      rw [newCandidate_idx, hee]; simp
    · show (newCandidate (Entry.roll f)).methods = _
      rw [newCandidate_idx, hee]; rfl
    · show (newCandidate (Entry.roll f)).value = _
      rw [newCandidate_idx, hee]; rfl
    · show (newCandidate (Entry.roll f)).zDetail = _
      rw [newCandidate_idx, zAt_append, zAt_singleton_roll, hz0, List.nil_append]; rfl
    · show (newCandidate (Entry.roll f)).iqrDetail = _
      rw [newCandidate_idx, iqrAt_append, iqrAt_singleton_roll, hi0, List.nil_append]; rfl
    · show (newCandidate (Entry.roll f)).rollDetail = _
      rw [newCandidate_idx, rollAt_append, rollAt_singleton_roll,
        if_pos (show f.idx = (Entry.roll f).idx from rfl), hr0, List.nil_append]
      rfl

theorem addFinding_inv {done : List Entry} {cs : List Candidate} (e : Entry)
    (h : AggInv done cs) : AggInv (done ++ [e]) (addFinding cs e) := by
  obtain ⟨hnd, hok, hcover⟩ := h
  rcases addFinding_cases cs e with ⟨hnm, heq⟩ | ⟨pre, c, post, hcs, hcidx, hpre, heq⟩
  · rw [heq]
    have hdone : e.idx ∉ done.map Entry.idx := fun hm => hnm (hcover _ hm)
    refine ⟨?_, ?_, ?_⟩
    · rw [List.map_append]
      rw [List.nodup_append]
      refine ⟨hnd, by simp, ?_⟩
      intro a ha hb
      simp only [List.map_cons, List.map_nil, List.mem_cons, List.not_mem_nil,
        or_false, newCandidate_idx] at hb
      exact hnm (hb ▸ ha)
    · intro c hc
      rcases List.mem_append.mp hc with hc | hc
      · have hne : c.idx ≠ e.idx := fun hh => hnm (hh ▸ List.mem_map_of_mem _ hc)
        exact candOk_extend_ne e (hok c hc) hne
      · have : c = newCandidate e := by simpa using hc
        rw [this]
        exact candOk_new e hdone
    · intro i hi
      rw [List.map_append, List.mem_append] at hi ⊢
      rcases hi with hi | hi
      · exact Or.inl (hcover i hi)
      · right
        simp only [List.map_cons, List.map_nil, List.mem_cons, newCandidate_idx]
        simp only [List.map_cons, List.map_nil, List.mem_cons, List.not_mem_nil,
          or_false] at hi
        exact Or.inl hi
  · subst hcs
    rw [heq]
    have hmapeq : (pre ++ c.record e :: post).map Candidate.idx
        = (pre ++ c :: post).map Candidate.idx := by
      simp [record_idx]
    have hpost : c.idx ∉ post.map Candidate.idx := by
      have := hnd
      rw [List.map_append, List.nodup_append] at this
      obtain ⟨-, h2, -⟩ := this
      simp only [List.map_cons, List.nodup_cons] at h2
      exact h2.1
    refine ⟨?_, ?_, ?_⟩
    · rw [hmapeq]; exact hnd
    · intro x hx
      rcases List.mem_append.mp hx with hx | hx
      · have hne : x.idx ≠ e.idx := fun hh => hpre (hh ▸ List.mem_map_of_mem _ hx)
        exact candOk_extend_ne e (hok x (List.mem_append.mpr (Or.inl hx))) hne
      · rcases List.mem_cons.mp hx with hx | hx
        · rw [hx]
          exact candOk_extend_eq e (hok c (by simp)) hcidx
        · have hne : x.idx ≠ e.idx := by
            intro hh
            exact hpost (by rw [hcidx, ← hh]; exact List.mem_map_of_mem _ hx)
          exact candOk_extend_ne e (hok x (by simp [hx])) hne
    · intro i hi
      rw [List.map_append, List.mem_append] at hi
      rw [hmapeq]
      rcases hi with hi | hi
      · exact hcover i hi
      · simp only [List.map_cons, List.map_nil, List.mem_cons, List.not_mem_nil,
          or_false] at hi
        rw [hi, ← hcidx]
        simp

theorem aggFrom_inv (es : List Entry) : ∀ (done : List Entry) (cs : List Candidate),
    AggInv done cs → AggInv (done ++ es) (es.foldl addFinding cs) := by
  induction es with
  | nil => intro done cs h; simpa using h
  | cons e es ih =>
    intro done cs h
    have h' := addFinding_inv e h
    have := ih (done ++ [e]) (addFinding cs e) h'
    simpa using this

theorem aggregate_inv (es : List Entry) : AggInv es (aggregate es) := by
  have base : AggInv [] ([] : List Candidate) := by
    refine ⟨by simp, by simp, by simp⟩
  have := aggFrom_inv es [] [] base
  simpa [aggregate] using this

/-! ### Characterizations of the detector outputs -/

theorem mem_z_iff {sqrtFn : ℚ → ℚ} {s : List ℚ} {t : ℚ} {f : ZFinding} :
    f ∈ z_score_anomalies sqrtFn s t ↔
      3 ≤ s.length ∧ s[f.idx]? = some f.value ∧
      f.z = absDivExt (f.value - seriesMean s) (sqrtFn (popVar s)) ∧
      f.z.gtQ t = true := by
  unfold z_score_anomalies
  by_cases h : s.length < 3
  · rw [if_pos h]
    simp only [List.not_mem_nil, false_iff, not_and]
    intro hlen
    omega
  · rw [if_neg h]
    rw [List.mem_filterMap]
    constructor
    · rintro ⟨p, hp, hsome⟩
      rw [List.mem_enum_iff_getElem?] at hp
      by_cases hgt : (absDivExt (p.2 - seriesMean s) (sqrtFn (popVar s))).gtQ t = true
      · simp only [hgt, if_true] at hsome
        obtain rfl := Option.some.inj hsome
        exact ⟨by omega, hp, rfl, hgt⟩
      · rw [if_neg hgt] at hsome
        cases hsome
    · rintro ⟨hlen, hget, hz, hgt⟩
      refine ⟨(f.idx, f.value), List.mem_enum_iff_getElem?.mpr hget, ?_⟩
      simp only [← hz, hgt, if_true]

theorem mem_iqr_iff {s : List ℚ} {f : IqrFinding} :
    f ∈ iqr_outliers s ↔
      5 ≤ s.length ∧ s[f.idx]? = some f.value ∧
      f.lowerBound = quantile s (1 / 4) - 3 / 2 * (quantile s (3 / 4) - quantile s (1 / 4)) ∧
      f.upperBound = quantile s (3 / 4) + 3 / 2 * (quantile s (3 / 4) - quantile s (1 / 4)) ∧
      (f.value < f.lowerBound ∨ f.value > f.upperBound) := by
  unfold iqr_outliers
  by_cases h : s.length < 5
  · rw [if_pos h]
    simp only [List.not_mem_nil, false_iff, not_and]
    intro hlen
    omega
  · rw [if_neg h]
    rw [List.mem_filterMap]
    constructor
    · rintro ⟨p, hp, hsome⟩
      rw [List.mem_enum_iff_getElem?] at hp
      by_cases hout : p.2 < quantile s (1 / 4) - 3 / 2 * (quantile s (3 / 4) - quantile s (1 / 4))
          ∨ p.2 > quantile s (3 / 4) + 3 / 2 * (quantile s (3 / 4) - quantile s (1 / 4))
      · rw [if_pos hout] at hsome
        obtain rfl := Option.some.inj hsome
        exact ⟨by omega, hp, rfl, rfl, hout⟩
      · rw [if_neg hout] at hsome
        cases hsome
    · rintro ⟨hlen, hget, hlb, hub, hout⟩
      refine ⟨(f.idx, f.value), List.mem_enum_iff_getElem?.mpr hget, ?_⟩
      rw [if_pos (by rw [← hlb, ← hub]; exact hout)]
      rw [← hlb, ← hub]

theorem mem_roll_iff {s : List ℚ} {w : ℕ} {f : RollFinding} :
    f ∈ rolling_average_deviation s w ↔
      w ≤ s.length ∧ w ≤ f.idx ∧ s[f.idx]? = some f.value ∧
      f.rollingMean = windowMean s w f.idx ∧
      f.deviationPct = absDivExt (f.value - f.rollingMean) f.rollingMean ∧
      f.deviationPct.gtQ (1 / 2) = true := by
  unfold rolling_average_deviation
  by_cases h : s.length < w
  · rw [if_pos h]
    simp only [List.not_mem_nil, false_iff, not_and]
    intro hlen
    omega
  · rw [if_neg h]
    rw [List.mem_filterMap]
    constructor
    · rintro ⟨p, hp, hsome⟩
      rw [List.mem_enum_iff_getElem?] at hp
      by_cases hlt : p.1 < w
      · rw [if_pos hlt] at hsome
        cases hsome
      · rw [if_neg hlt] at hsome
        by_cases hgt : (absDivExt (p.2 - windowMean s w p.1) (windowMean s w p.1)).gtQ (1 / 2) = true
        · simp only [hgt, if_true] at hsome
          obtain rfl := Option.some.inj hsome
          exact ⟨by omega, Nat.le_of_not_lt hlt, hp, rfl, rfl, hgt⟩
        · rw [if_neg hgt] at hsome
          cases hsome
    · rintro ⟨hlen, hw, hget, hm, hdev, hgt⟩
      refine ⟨(f.idx, f.value), List.mem_enum_iff_getElem?.mpr hget, ?_⟩
      rw [if_neg (by omega)]
      simp only [← hm, ← hdev, hgt, if_true]

theorem nodup_filterMap_idx {α β : Type} (g : α → Option β) (key : α → ℕ) (idxOf : β → ℕ)
    (hg : ∀ a b, g a = some b → idxOf b = key a) :
    ∀ l : List α, (l.map key).Nodup → ((l.filterMap g).map idxOf).Nodup := by
  intro l
  induction l with
  | nil => simp
  | cons a l ih =>
    intro h
    rw [List.map_cons, List.nodup_cons] at h
    rw [List.filterMap_cons]
    cases hga : g a with
    | none => exact ih h.2
    | some b =>
      rw [List.map_cons, List.nodup_cons]
      refine ⟨?_, ih h.2⟩
      intro hmem
      rw [hg a b hga] at hmem
      obtain ⟨b', hb', hkey⟩ := List.mem_map.mp hmem
      obtain ⟨a', ha', hga'⟩ := List.mem_filterMap.mp hb'
      exact h.1 (by rw [← hkey, hg a' b' hga']; exact List.mem_map_of_mem _ ha')

theorem z_idx_nodup (sqrtFn : ℚ → ℚ) (s : List ℚ) (t : ℚ) :
    ((z_score_anomalies sqrtFn s t).map ZFinding.idx).Nodup := by
  unfold z_score_anomalies
  by_cases h : s.length < 3
  · simp [h]
  · rw [if_neg h]
    refine nodup_filterMap_idx _ Prod.fst ZFinding.idx ?_ s.enum ?_
    · intro p b hb
      by_cases hgt : (absDivExt (p.2 - seriesMean s) (sqrtFn (popVar s))).gtQ t = true
      · simp only [hgt, if_true] at hb
        obtain rfl := Option.some.inj hb
        rfl
      · rw [if_neg hgt] at hb
        cases hb
    · rw [List.enum_map_fst]
      exact List.nodup_range _

theorem iqr_idx_nodup (s : List ℚ) :
    ((iqr_outliers s).map IqrFinding.idx).Nodup := by
  unfold iqr_outliers
  by_cases h : s.length < 5
  · simp [h]
  · rw [if_neg h]
    refine nodup_filterMap_idx _ Prod.fst IqrFinding.idx ?_ s.enum ?_
    · intro p b hb
      by_cases hout : p.2 < quantile s (1 / 4) - 3 / 2 * (quantile s (3 / 4) - quantile s (1 / 4))
          ∨ p.2 > quantile s (3 / 4) + 3 / 2 * (quantile s (3 / 4) - quantile s (1 / 4))
      · rw [if_pos hout] at hb
        obtain rfl := Option.some.inj hb
        rfl
      · rw [if_neg hout] at hb
        cases hb
    · rw [List.enum_map_fst]
      exact List.nodup_range _

theorem roll_idx_nodup (s : List ℚ) (w : ℕ) :
    ((rolling_average_deviation s w).map RollFinding.idx).Nodup := by
  unfold rolling_average_deviation
  by_cases h : s.length < w
  · simp [h]
  · rw [if_neg h]
    refine nodup_filterMap_idx _ Prod.fst RollFinding.idx ?_ s.enum ?_
    · intro p b hb
      by_cases hlt : p.1 < w
      · rw [if_pos hlt] at hb
        cases hb
      · rw [if_neg hlt] at hb
        by_cases hgt : (absDivExt (p.2 - windowMean s w p.1) (windowMean s w p.1)).gtQ (1 / 2) = true
        · simp only [hgt, if_true] at hb
          obtain rfl := Option.some.inj hb
          rfl
        · rw [if_neg hgt] at hb
          cases hb
    · rw [List.enum_map_fst]
      exact List.nodup_range _

/-! ### Decomposing the pipeline's entry list -/

theorem zAt_map_z (zs : List ZFinding) (i : ℕ) :
    zAt (zs.map Entry.z) i = zs.filter (fun f => f.idx == i) := by
  induction zs with
  | nil => rfl
  | cons f fs ih =>
    rw [List.map_cons]
    by_cases h : f.idx = i
    · simp only [zAt, List.filterMap_cons] at ih ⊢
      rw [List.filter_cons]
      simp only [h, if_pos, beq_self_eq_true, if_true, ih]
    · simp only [zAt, List.filterMap_cons] at ih ⊢
      rw [List.filter_cons]
      simp only [h, if_neg, beq_iff_eq, if_false, ih, reduceIte]

theorem zAt_map_iqr (fs : List IqrFinding) (i : ℕ) : zAt (fs.map Entry.iqr) i = [] := by
  rw [zAt, List.filterMap_eq_nil_iff]
  intro e he
  obtain ⟨f, _, rfl⟩ := List.mem_map.mp he
  rfl

theorem zAt_map_roll (fs : List RollFinding) (i : ℕ) : zAt (fs.map Entry.roll) i = [] := by
  rw [zAt, List.filterMap_eq_nil_iff]
  intro e he
  obtain ⟨f, _, rfl⟩ := List.mem_map.mp he
  rfl

theorem iqrAt_map_iqr (fs : List IqrFinding) (i : ℕ) :
    iqrAt (fs.map Entry.iqr) i = fs.filter (fun f => f.idx == i) := by
  induction fs with
  | nil => rfl
  | cons f fs ih =>
    rw [List.map_cons]
    by_cases h : f.idx = i
    · simp only [iqrAt, List.filterMap_cons] at ih ⊢
      rw [List.filter_cons]
      simp only [h, if_pos, beq_self_eq_true, if_true, ih]
    · simp only [iqrAt, List.filterMap_cons] at ih ⊢
      rw [List.filter_cons]
      simp only [h, if_neg, beq_iff_eq, if_false, ih, reduceIte]

theorem iqrAt_map_z (fs : List ZFinding) (i : ℕ) : iqrAt (fs.map Entry.z) i = [] := by
  rw [iqrAt, List.filterMap_eq_nil_iff]
  intro e he
  obtain ⟨f, _, rfl⟩ := List.mem_map.mp he
  rfl

theorem iqrAt_map_roll (fs : List RollFinding) (i : ℕ) : iqrAt (fs.map Entry.roll) i = [] := by
  rw [iqrAt, List.filterMap_eq_nil_iff]
  intro e he
  obtain ⟨f, _, rfl⟩ := List.mem_map.mp he
  rfl

theorem rollAt_map_roll (fs : List RollFinding) (i : ℕ) :
    rollAt (fs.map Entry.roll) i = fs.filter (fun f => f.idx == i) := by
  induction fs with
  | nil => rfl
  | cons f fs ih =>
    rw [List.map_cons]
    by_cases h : f.idx = i
    · simp only [rollAt, List.filterMap_cons] at ih ⊢
      rw [List.filter_cons]
      simp only [h, if_pos, beq_self_eq_true, if_true, ih]
    · simp only [rollAt, List.filterMap_cons] at ih ⊢
      rw [List.filter_cons]
      simp only [h, if_neg, beq_iff_eq, if_false, ih, reduceIte]

theorem rollAt_map_z (fs : List ZFinding) (i : ℕ) : rollAt (fs.map Entry.z) i = [] := by
  rw [rollAt, List.filterMap_eq_nil_iff]
  intro e he
  obtain ⟨f, _, rfl⟩ := List.mem_map.mp he
  rfl

theorem rollAt_map_iqr (fs : List IqrFinding) (i : ℕ) : rollAt (fs.map Entry.iqr) i = [] := by
  rw [rollAt, List.filterMap_eq_nil_iff]
  intro e he
  obtain ⟨f, _, rfl⟩ := List.mem_map.mp he
  rfl

theorem entriesAt_map_z (zs : List ZFinding) (i : ℕ) :
    entriesAt (zs.map Entry.z) i = (zs.filter (fun f => f.idx == i)).map Entry.z := by
  rw [entriesAt]
  exact List.filter_map _ _

theorem entriesAt_map_iqr (fs : List IqrFinding) (i : ℕ) :
    entriesAt (fs.map Entry.iqr) i = (fs.filter (fun f => f.idx == i)).map Entry.iqr := by
  rw [entriesAt]
  exact List.filter_map _ _

theorem entriesAt_map_roll (fs : List RollFinding) (i : ℕ) :
    entriesAt (fs.map Entry.roll) i = (fs.filter (fun f => f.idx == i)).map Entry.roll := by
  rw [entriesAt]
  exact List.filter_map _ _

theorem zAt_pipeline (sqrtFn : ℚ → ℚ) (s : List ℚ) (i : ℕ) :
    zAt (pipelineEntries sqrtFn s) i
      = (z_score_anomalies sqrtFn s 3).filter (fun f => f.idx == i) := by
  rw [pipelineEntries, zAt_append, zAt_append, zAt_map_z, zAt_map_iqr, zAt_map_roll,
    List.append_nil, List.append_nil]

theorem iqrAt_pipeline (sqrtFn : ℚ → ℚ) (s : List ℚ) (i : ℕ) :
    iqrAt (pipelineEntries sqrtFn s) i
      = (iqr_outliers s).filter (fun f => f.idx == i) := by
  rw [pipelineEntries, iqrAt_append, iqrAt_append, iqrAt_map_z, iqrAt_map_iqr,
    iqrAt_map_roll, List.append_nil, List.nil_append]

theorem rollAt_pipeline (sqrtFn : ℚ → ℚ) (s : List ℚ) (i : ℕ) :
    rollAt (pipelineEntries sqrtFn s) i
      = (rolling_average_deviation s 30).filter (fun f => f.idx == i) := by
  rw [pipelineEntries, rollAt_append, rollAt_append, rollAt_map_z, rollAt_map_iqr,
    rollAt_map_roll, List.nil_append, List.nil_append]

theorem entriesAt_pipeline (sqrtFn : ℚ → ℚ) (s : List ℚ) (i : ℕ) :
    entriesAt (pipelineEntries sqrtFn s) i
      = ((z_score_anomalies sqrtFn s 3).filter (fun f => f.idx == i)).map Entry.z
        ++ ((iqr_outliers s).filter (fun f => f.idx == i)).map Entry.iqr
        ++ ((rolling_average_deviation s 30).filter (fun f => f.idx == i)).map Entry.roll := by
  rw [pipelineEntries, entriesAt_append, entriesAt_append, entriesAt_map_z,
    entriesAt_map_iqr, entriesAt_map_roll]

theorem filter_idx_small {β : Type} (idxOf : β → ℕ) :
    ∀ (l : List β), (l.map idxOf).Nodup → ∀ i : ℕ,
      l.filter (fun b => idxOf b == i) = [] ∨
      ∃ f, f ∈ l ∧ idxOf f = i ∧ l.filter (fun b => idxOf b == i) = [f] := by
  intro l
  induction l with
  | nil => intro _ i; left; rfl
  | cons b l ih =>
    intro hnd i
    rw [List.map_cons, List.nodup_cons] at hnd
    rw [List.filter_cons]
    by_cases h : idxOf b = i
    · right
      refine ⟨b, by simp, h, ?_⟩
      rw [if_pos (by simp [h])]
      have hnil : l.filter (fun x => idxOf x == i) = [] := by
        rw [List.filter_eq_nil_iff]
        intro x hx
        simp only [beq_iff_eq]
        intro hh
        exact hnd.1 (by rw [h, ← hh]; exact List.mem_map_of_mem _ hx)
      rw [hnil]
    · rw [if_neg (by simp [h])]
      rcases ih hnd.2 i with hc | ⟨f, hf, hfi, hc⟩
      · left; exact hc
      · right; exact ⟨f, List.mem_cons_of_mem _ hf, hfi, hc⟩

theorem mem_report_iff {sqrtFn : ℚ → ℚ} {s : List ℚ} {a : ValidatedAnomaly} :
    a ∈ anomalyReportOn sqrtFn s ↔
      ∃ c ∈ aggregate (pipelineEntries sqrtFn s),
        2 ≤ c.methods.length ∧ a = buildAnomaly s c := by
  unfold anomalyReportOn
  rw [List.mem_filterMap]
  constructor
  · rintro ⟨c, hc, hsome⟩
    by_cases h : 2 ≤ c.methods.length
    · rw [if_pos h] at hsome
      exact ⟨c, hc, h, (Option.some.inj hsome).symm⟩
    · rw [if_neg h] at hsome
      cases hsome
  · rintro ⟨c, hc, h2, rfl⟩
    exact ⟨c, hc, by rw [if_pos h2]⟩

/-! ### What a candidate's slots contain, in terms of the detector outputs -/

theorem any_of_filter_nil {β : Type} (idxOf : β → ℕ) (l : List β) (i : ℕ)
    (h : l.filter (fun b => idxOf b == i) = []) :
    l.any (fun b => idxOf b == i) = false := by
  rw [List.any_eq_false]
  intro x hx
  exact List.filter_eq_nil_iff.mp h x hx

theorem any_of_filter_single {β : Type} (idxOf : β → ℕ) (l : List β) (i : ℕ) (f : β)
    (hf : f ∈ l) (hfi : idxOf f = i) :
    l.any (fun b => idxOf b == i) = true :=
  List.any_eq_true.mpr ⟨f, hf, by simp [hfi]⟩

theorem seg_eq {β : Type} (idxOf : β → ℕ) (l : List β) (hnd : (l.map idxOf).Nodup)
    (i : ℕ) (g : β → Method) (m : Method) (hg : ∀ b, g b = m) :
    (l.filter (fun b => idxOf b == i)).map g
      = (if l.any (fun b => idxOf b == i) then [m] else []) := by
  rcases filter_idx_small idxOf l hnd i with hc | ⟨f, hf, hfi, hc⟩
  · rw [hc, any_of_filter_nil idxOf l i hc]
    rfl
  · rw [hc, any_of_filter_single idxOf l i f hf hfi]
    simp [hg]

theorem methods_eq_fired {sqrtFn : ℚ → ℚ} {s : List ℚ} {c : Candidate}
    (hok : CandOk (pipelineEntries sqrtFn s) c) :
    c.methods = firedMethods sqrtFn s c.idx := by
  have h1 := hok.2.1
  rw [entriesAt_pipeline, List.map_append, List.map_append, List.map_map,
    List.map_map, List.map_map] at h1
  rw [h1, firedMethods,
    seg_eq ZFinding.idx _ (z_idx_nodup sqrtFn s 3) c.idx (Entry.method ∘ Entry.z)
      Method.z_score (fun _ => rfl),
    seg_eq IqrFinding.idx _ (iqr_idx_nodup s) c.idx (Entry.method ∘ Entry.iqr)
      Method.iqr (fun _ => rfl),
    seg_eq RollFinding.idx _ (roll_idx_nodup s 30) c.idx (Entry.method ∘ Entry.roll)
      Method.rolling_deviation (fun _ => rfl)]

theorem firedMethods_nodup (sqrtFn : ℚ → ℚ) (s : List ℚ) (i : ℕ) :
    (firedMethods sqrtFn s i).Nodup := by
  rw [firedMethods]
  cases (z_score_anomalies sqrtFn s 3).any (fun f => f.idx == i) <;>
    cases (iqr_outliers s).any (fun f => f.idx == i) <;>
      cases (rolling_average_deviation s 30).any (fun f => f.idx == i) <;>
        simp

theorem zDetail_spec {sqrtFn : ℚ → ℚ} {s : List ℚ} {c : Candidate}
    (hok : CandOk (pipelineEntries sqrtFn s) c) :
    (c.zDetail = none ∧ ∀ f ∈ z_score_anomalies sqrtFn s 3, f.idx ≠ c.idx) ∨
    (∃ f, c.zDetail = some f ∧ f ∈ z_score_anomalies sqrtFn s 3 ∧ f.idx = c.idx) := by
  have h3 := hok.2.2.2.1
  rw [zAt_pipeline] at h3
  rcases filter_idx_small ZFinding.idx _ (z_idx_nodup sqrtFn s 3) c.idx
      with hc | ⟨f, hf, hfi, hc⟩
  · left
    refine ⟨by rw [h3, hc]; rfl, ?_⟩
    intro f hfmem hfi
    have hin : f ∈ (z_score_anomalies sqrtFn s 3).filter (fun g => g.idx == c.idx) :=
      List.mem_filter.mpr ⟨hfmem, by simp [hfi]⟩
    rw [hc] at hin
    exact List.not_mem_nil f hin
  · right
    exact ⟨f, by rw [h3, hc]; rfl, hf, hfi⟩

theorem rollDetail_spec {sqrtFn : ℚ → ℚ} {s : List ℚ} {c : Candidate}
    (hok : CandOk (pipelineEntries sqrtFn s) c) :
    (c.rollDetail = none ∧ ∀ f ∈ rolling_average_deviation s 30, f.idx ≠ c.idx) ∨
    (∃ f, c.rollDetail = some f ∧ f ∈ rolling_average_deviation s 30 ∧ f.idx = c.idx) := by
  have h5 := hok.2.2.2.2.2
  rw [rollAt_pipeline] at h5
  rcases filter_idx_small RollFinding.idx _ (roll_idx_nodup s 30) c.idx
      with hc | ⟨f, hf, hfi, hc⟩
  · left
    refine ⟨by rw [h5, hc]; rfl, ?_⟩
    intro f hfmem hfi
    have hin : f ∈ (rolling_average_deviation s 30).filter (fun g => g.idx == c.idx) :=
      List.mem_filter.mpr ⟨hfmem, by simp [hfi]⟩
    rw [hc] at hin
    exact List.not_mem_nil f hin
  · right
    exact ⟨f, by rw [h5, hc]; rfl, hf, hfi⟩

theorem fired_imp_entry {sqrtFn : ℚ → ℚ} {s : List ℚ} {i : ℕ}
    (h : firedMethods sqrtFn s i ≠ []) :
    i ∈ (pipelineEntries sqrtFn s).map Entry.idx := by
  by_cases hz : (z_score_anomalies sqrtFn s 3).any (fun f => f.idx == i) = true
  · obtain ⟨f, hf, hfi⟩ := List.any_eq_true.mp hz
    refine List.mem_map.mpr ⟨Entry.z f, ?_, by simpa using hfi⟩
    rw [pipelineEntries]
    exact List.mem_append.mpr (Or.inl (List.mem_append.mpr
      (Or.inl (List.mem_map_of_mem _ hf))))
  · by_cases hiq : (iqr_outliers s).any (fun f => f.idx == i) = true
    · obtain ⟨f, hf, hfi⟩ := List.any_eq_true.mp hiq
      refine List.mem_map.mpr ⟨Entry.iqr f, ?_, by simpa using hfi⟩
      rw [pipelineEntries]
      exact List.mem_append.mpr (Or.inl (List.mem_append.mpr
        (Or.inr (List.mem_map_of_mem _ hf))))
    · by_cases hr : (rolling_average_deviation s 30).any (fun f => f.idx == i) = true
      · obtain ⟨f, hf, hfi⟩ := List.any_eq_true.mp hr
        refine List.mem_map.mpr ⟨Entry.roll f, ?_, by simpa using hfi⟩
        rw [pipelineEntries]
        exact List.mem_append.mpr (Or.inr (List.mem_map_of_mem _ hf))
      · exact absurd (by simp [firedMethods, hz, hiq, hr]) h

theorem report_iff_fired (sqrtFn : ℚ → ℚ) (s : List ℚ) (i : ℕ) :
    (∃ a ∈ anomalyReportOn sqrtFn s, a.idx = i)
      ↔ 2 ≤ (firedMethods sqrtFn s i).length := by
  constructor
  · rintro ⟨a, ha, rfl⟩
    obtain ⟨c, hc, h2, rfl⟩ := mem_report_iff.mp ha
    have hok := (aggregate_inv _).2.1 c hc
    have hmf := methods_eq_fired hok
    show 2 ≤ (firedMethods sqrtFn s (buildAnomaly s c).idx).length
    have hbidx : (buildAnomaly s c).idx = c.idx := rfl
    rw [hbidx, ← hmf]
    exact h2
  · intro h2
    have hne : firedMethods sqrtFn s i ≠ [] := by
      intro hh
      rw [hh] at h2
      simp at h2
    obtain ⟨c, hc, hcidx⟩ :=
      List.mem_map.mp ((aggregate_inv (pipelineEntries sqrtFn s)).2.2 i (fired_imp_entry hne))
    have hok := (aggregate_inv _).2.1 c hc
    have hlen : 2 ≤ c.methods.length := by
      rw [methods_eq_fired hok, hcidx]
      exact h2
    exact ⟨buildAnomaly s c, mem_report_iff.mpr ⟨c, hc, hlen, rfl⟩, hcidx⟩

/-! ### Arithmetic helpers -/

theorem round2_bounds {q : ℚ} (h0 : 0 ≤ q) (h10 : q ≤ 10) :
    0 ≤ round2 q ∧ round2 q ≤ 10 := by
  unfold round2
  have hfl : round (100 * q) = ⌊100 * q + 1 / 2⌋ := round_eq _
  constructor
  · apply div_nonneg _ (by norm_num)
    rw [hfl]
    have : (0 : ℤ) ≤ ⌊100 * q + 1 / 2⌋ := Int.floor_nonneg.mpr (by linarith)
    exact_mod_cast this
  · rw [div_le_iff₀ (by norm_num : (0:ℚ) < 100)]
    rw [hfl]
    have h1 : 100 * q + 1 / 2 ≤ (2001 : ℚ) / 2 := by linarith
    have h2 : ⌊100 * q + 1 / 2⌋ ≤ ⌊(2001 : ℚ) / 2⌋ := Int.floor_le_floor h1
    have h3 : ⌊(2001 : ℚ) / 2⌋ = 1000 := by
      rw [Int.floor_eq_iff]
      norm_num
    rw [h3] at h2
    calc ((⌊100 * q + 1 / 2⌋ : ℤ) : ℚ) ≤ (1000 : ℚ) := by exact_mod_cast h2
      _ ≤ 10 * 100 := by norm_num

theorem round2_five : round2 5 = 5 := by
  unfold round2
  rw [show (100 : ℚ) * 5 = ((500 : ℤ) : ℚ) by norm_num, round_intCast]
  norm_num

theorem capSeverity_bounds {z : FVal} (h : z.gtQ 3 = true) :
    0 ≤ capSeverity z ∧ capSeverity z ≤ 10 := by
  cases z with
  | fin q =>
    have hq : 3 < q := by simpa [FVal.gtQ] using h
    exact ⟨le_min (by norm_num) (by linarith), min_le_left _ _⟩
  | inf => exact ⟨by norm_num [capSeverity], by norm_num [capSeverity]⟩
  | nan => cases h

theorem all_zero_of_sum_nonneg {l : List ℚ} (h0 : ∀ x ∈ l, 0 ≤ x) (hs : l.sum = 0) :
    ∀ x ∈ l, x = 0 := by
  induction l with
  | nil => simp
  | cons a l ih =>
    rw [List.sum_cons] at hs
    have ha : 0 ≤ a := h0 a (by simp)
    have hl : 0 ≤ l.sum := List.sum_nonneg (fun x hx => h0 x (List.mem_cons_of_mem _ hx))
    have ha0 : a = 0 := by linarith
    have hl0 : l.sum = 0 := by linarith
    intro x hx
    rcases List.mem_cons.mp hx with rfl | hx
    · exact ha0
    · exact ih (fun y hy => h0 y (List.mem_cons_of_mem _ hy)) hl0 x hx

theorem eq_of_mem_of_nodup_idx {β : Type} (idxOf : β → ℕ) {l : List β}
    (hnd : (l.map idxOf).Nodup) {f g : β} (hf : f ∈ l) (hg : g ∈ l)
    (h : idxOf f = idxOf g) : f = g := by
  rcases filter_idx_small idxOf l hnd (idxOf f) with hc | ⟨x, _, _, hc⟩
  · have h1 : f ∈ l.filter (fun b => idxOf b == idxOf f) := List.mem_filter.mpr ⟨hf, by simp⟩
    rw [hc] at h1
    exact absurd h1 (List.not_mem_nil f)
  · have h1 : f ∈ l.filter (fun b => idxOf b == idxOf f) := List.mem_filter.mpr ⟨hf, by simp⟩
    have h2 : g ∈ l.filter (fun b => idxOf b == idxOf f) :=
      List.mem_filter.mpr ⟨hg, by simp [h]⟩
    rw [hc] at h1 h2
    rw [List.mem_singleton.mp h1, List.mem_singleton.mp h2]

/-! ### Claim theorems -/

/-- Square-root stand-in used by the concrete witnesses; all claim
theorems hold for every `sqrtFn`, so any concrete choice is admissible. -/
def sqrtZero : ℚ → ℚ := fun _ => 0

/-- Concrete witness series: four stable points and one extreme point. -/
def sampleSeries : List ℚ := [10, 10, 10, 10, 100]

/-- The single validated anomaly the ensemble produces on
`sampleSeries` (with `sqrtZero` as the square-root stand-in). -/
def sampleAnomaly : ValidatedAnomaly :=
  { idx := 4
    metricName := "daily_enrollments"
    anomalyValue := 100
    severityScore := 10
    anomalyType := AnomType.spike
    detectionMethods := [Method.z_score, Method.iqr] }

/-- C1: a timestamp is reported iff at least 2 distinct detection
methods flagged it, and every ValidatedAnomaly's `detection_methods`
list is duplicate-free with at least 2 elements (never empty, never a
singleton). -/
theorem C1_validated_iff_two_methods (sqrtFn : ℚ → ℚ) (s : List ℚ) :
    (∀ i : ℕ, (∃ a ∈ anomalyReportOn sqrtFn s, a.idx = i)
        ↔ 2 ≤ (firedMethods sqrtFn s i).length) ∧
    (∀ a ∈ anomalyReportOn sqrtFn s,
        a.detectionMethods.Nodup ∧ 2 ≤ a.detectionMethods.length) := by
  refine ⟨report_iff_fired sqrtFn s, ?_⟩
  intro a ha
  obtain ⟨c, hc, h2, rfl⟩ := mem_report_iff.mp ha
  have hok := (aggregate_inv _).2.1 c hc
  have hdm : (buildAnomaly s c).detectionMethods = c.methods := rfl
  rw [hdm, methods_eq_fired hok]
  refine ⟨firedMethods_nodup _ _ _, ?_⟩
  rw [← methods_eq_fired hok]
  exact h2

theorem C1_validated_iff_two_methods_witness :
    (∃ a ∈ anomalyReportOn sqrtZero sampleSeries, a.idx = 4) ∧
    (∀ a ∈ anomalyReportOn sqrtZero sampleSeries,
        a.detectionMethods.Nodup ∧ 2 ≤ a.detectionMethods.length) :=
  ⟨((C1_validated_iff_two_methods sqrtZero sampleSeries).1 4).mpr
      (by with_unfolding_all decide),
    (C1_validated_iff_two_methods sqrtZero sampleSeries).2⟩

/-- C2: direction classification of a validated candidate follows the
exact fallback order of the source: if the Rolling-Deviation method
contributed a finding for the timestamp, the anomaly is a Drop iff the
value is strictly below that finding's rolling mean (otherwise Spike);
if Rolling-Deviation did not fire there, the anomaly is a Drop iff the
value is strictly below the mean of the whole input series. -/
theorem C2_direction_fallback (sqrtFn : ℚ → ℚ) (s : List ℚ) :
    ∀ a ∈ anomalyReportOn sqrtFn s,
      (∀ f ∈ rolling_average_deviation s 30, f.idx = a.idx →
        (a.anomalyType = AnomType.drop ↔ a.anomalyValue < f.rollingMean)) ∧
      ((∀ f ∈ rolling_average_deviation s 30, f.idx ≠ a.idx) →
        (a.anomalyType = AnomType.drop ↔ a.anomalyValue < seriesMean s)) := by
  intro a ha
  obtain ⟨c, hc, h2, rfl⟩ := mem_report_iff.mp ha
  have hok := (aggregate_inv _).2.1 c hc
  have haidx : (buildAnomaly s c).idx = c.idx := rfl
  constructor
  · intro f hf hfidx
    rcases rollDetail_spec hok with ⟨hnone, hnof⟩ | ⟨f', hsome, hf'mem, hf'idx⟩
    · exact absurd (hfidx.trans haidx) (hnof f hf)
    · have hff' : f = f' :=
        eq_of_mem_of_nodup_idx RollFinding.idx (roll_idx_nodup s 30) hf hf'mem
          (by rw [hf'idx, ← haidx, hfidx])
      subst hff'
      show classifyType s c = AnomType.drop ↔ c.value < f.rollingMean
      rw [classifyType, hsome]
      by_cases hlt : c.value < f.rollingMean
      · simp [hlt]
      · simp [hlt]
  · intro hnof
    rcases rollDetail_spec hok with ⟨hnone, -⟩ | ⟨f', hsome, hf'mem, hf'idx⟩
    · show classifyType s c = AnomType.drop ↔ c.value < seriesMean s
      rw [classifyType, hnone]
      by_cases hlt : c.value < seriesMean s
      · simp [hlt]
      · simp [hlt]
    · exact absurd (hf'idx.trans haidx.symm) (hnof f' hf'mem)

theorem C2_direction_fallback_witness :
    (sampleAnomaly ∈ anomalyReportOn sqrtZero sampleSeries) ∧
    ((∀ f ∈ rolling_average_deviation sampleSeries 30, f.idx ≠ sampleAnomaly.idx) →
      (sampleAnomaly.anomalyType = AnomType.drop
        ↔ sampleAnomaly.anomalyValue < seriesMean sampleSeries)) :=
  ⟨by with_unfolding_all decide,
    (C2_direction_fallback sqrtZero sampleSeries sampleAnomaly
      (by with_unfolding_all decide)).2⟩

/-- C3: the severity of a validated candidate defaults to 5.0; when the
Z-Score method fired for the timestamp, the severity is the z-score
capped at 10 (for a finite z-score, `min 10 z`), rounded to 2 decimal
places; when Z-Score did not fire the severity stays 5.0. -/
theorem C3_severity_rule (sqrtFn : ℚ → ℚ) (s : List ℚ) :
    ∀ a ∈ anomalyReportOn sqrtFn s,
      ((∀ f ∈ z_score_anomalies sqrtFn s 3, f.idx ≠ a.idx) → a.severityScore = 5) ∧
      (∀ f ∈ z_score_anomalies sqrtFn s 3, f.idx = a.idx →
        a.severityScore = round2 (capSeverity f.z) ∧
        ∀ q : ℚ, f.z = FVal.fin q → a.severityScore = round2 (min 10 q)) := by
  intro a ha
  obtain ⟨c, hc, h2, rfl⟩ := mem_report_iff.mp ha
  have hok := (aggregate_inv _).2.1 c hc
  have haidx : (buildAnomaly s c).idx = c.idx := rfl
  constructor
  · intro hnof
    rcases zDetail_spec hok with ⟨hnone, -⟩ | ⟨f', hsome, hf'mem, hf'idx⟩
    · show round2 (severityOf c) = 5
      rw [severityOf, hnone]
      exact round2_five
    · exact absurd (hf'idx.trans haidx.symm) (hnof f' hf'mem)
  · intro f hf hfidx
    rcases zDetail_spec hok with ⟨hnone, hnof⟩ | ⟨f', hsome, hf'mem, hf'idx⟩
    · exact absurd (hfidx.trans haidx) (hnof f hf)
    · have hff' : f = f' :=
        eq_of_mem_of_nodup_idx ZFinding.idx (z_idx_nodup sqrtFn s 3) hf hf'mem
          (by rw [hf'idx, ← haidx, hfidx])
      subst hff'
      constructor
      · show round2 (severityOf c) = round2 (capSeverity f.z)
        rw [severityOf, hsome]
      · intro q hq
        have hsev : severityOf c = capSeverity f.z := by rw [severityOf, hsome]
        show round2 (severityOf c) = round2 (min 10 q)
        rw [hsev, hq]
        rfl

theorem C3_severity_rule_witness :
    (sampleAnomaly ∈ anomalyReportOn sqrtZero sampleSeries) ∧
    ((⟨4, 100, FVal.inf⟩ : ZFinding) ∈ z_score_anomalies sqrtZero sampleSeries 3) ∧
    sampleAnomaly.severityScore
      = round2 (capSeverity (⟨4, 100, FVal.inf⟩ : ZFinding).z) :=
  ⟨by with_unfolding_all decide, by with_unfolding_all decide,
    ((C3_severity_rule sqrtZero sampleSeries sampleAnomaly (by with_unfolding_all decide)).2
      ⟨4, 100, FVal.inf⟩ (by with_unfolding_all decide) rfl).1⟩

/-- C5: the severity score of every ValidatedAnomaly produced by the
aggregator lies in the closed interval `[0, 10]` and is an integer
multiple of `1/100`, i.e. a value rounded to 2 decimal places. -/
theorem C5_severity_bounded (sqrtFn : ℚ → ℚ) (s : List ℚ) :
    ∀ a ∈ anomalyReportOn sqrtFn s,
      0 ≤ a.severityScore ∧ a.severityScore ≤ 10 ∧
      ∃ k : ℤ, a.severityScore = (k : ℚ) / 100 := by
  intro a ha
  obtain ⟨c, hc, h2, rfl⟩ := mem_report_iff.mp ha
  have hok := (aggregate_inv _).2.1 c hc
  have hbounds : 0 ≤ severityOf c ∧ severityOf c ≤ 10 := by
    rcases zDetail_spec hok with ⟨hnone, -⟩ | ⟨f, hsome, hfmem, -⟩
    · rw [severityOf, hnone]
      norm_num
    · rw [severityOf, hsome]
      exact capSeverity_bounds (mem_z_iff.mp hfmem).2.2.2
  show 0 ≤ round2 (severityOf c) ∧ round2 (severityOf c) ≤ 10 ∧
    ∃ k : ℤ, round2 (severityOf c) = (k : ℚ) / 100
  obtain ⟨hb0, hb10⟩ := round2_bounds hbounds.1 hbounds.2
  exact ⟨hb0, hb10, round (100 * severityOf c), rfl⟩

theorem C5_severity_bounded_witness :
    (sampleAnomaly ∈ anomalyReportOn sqrtZero sampleSeries) ∧
    0 ≤ sampleAnomaly.severityScore ∧ sampleAnomaly.severityScore ≤ 10 ∧
    ∃ k : ℤ, sampleAnomaly.severityScore = (k : ℚ) / 100 :=
  ⟨by with_unfolding_all decide,
    C5_severity_bounded sqrtZero sampleSeries sampleAnomaly (by with_unfolding_all decide)⟩

/-- C7: for a series of length at least 3 with zero population variance
(equivalently, zero standard deviation — a constant series) the Z-Score
detector returns the empty list for every positive threshold and every
square-root function; no division error can occur (`0/0` is NaN, which
never exceeds a positive threshold). -/
theorem C7_constant_series_empty (sqrtFn : ℚ → ℚ) (s : List ℚ) (t : ℚ)
    (hlen : 3 ≤ s.length) (hvar : popVar s = 0) (ht : 0 < t) :
    z_score_anomalies sqrtFn s t = [] := by
  have hcast : ((s.length : ℚ)) ≠ 0 := Nat.cast_ne_zero.mpr (by omega)
  have hsum : (s.map (fun x => (x - seriesMean s) ^ 2)).sum = 0 := by
    unfold popVar at hvar
    rcases div_eq_zero_iff.mp hvar with h | h
    · exact h
    · exact absurd h hcast
  have hall : ∀ x ∈ s, x - seriesMean s = 0 := by
    intro x hx
    have hmem : (x - seriesMean s) ^ 2 ∈ s.map (fun y => (y - seriesMean s) ^ 2) :=
      List.mem_map_of_mem _ hx
    have hnn : ∀ y ∈ s.map (fun y => (y - seriesMean s) ^ 2), 0 ≤ y := by
      intro y hy
      obtain ⟨u, _, rfl⟩ := List.mem_map.mp hy
      positivity
    have hz := all_zero_of_sum_nonneg hnn hsum _ hmem
    exact (pow_eq_zero_iff (by norm_num)).mp hz
  unfold z_score_anomalies
  rw [if_neg (by omega)]
  rw [List.filterMap_eq_nil_iff]
  intro p hp
  have hx : p.2 ∈ s := by
    rw [List.mem_enum_iff_getElem?] at hp
    obtain ⟨hlt, heq⟩ := List.getElem?_eq_some_iff.mp hp
    exact heq ▸ List.getElem_mem hlt
  have h0 : p.2 - seriesMean s = 0 := hall p.2 hx
  show (if (absDivExt (p.2 - seriesMean s) (sqrtFn (popVar s))).gtQ t = true
      then some (⟨p.1, p.2, absDivExt (p.2 - seriesMean s) (sqrtFn (popVar s))⟩ : ZFinding)
      else none) = none
  rw [if_neg]
  rw [h0]
  by_cases hd : sqrtFn (popVar s) = 0
  · simp [absDivExt, hd, FVal.gtQ]
  · simp only [absDivExt, hd, if_false, reduceIte, zero_div, abs_zero, FVal.gtQ]
    simp only [decide_eq_true_eq]
    intro hcontra
    linarith

theorem C7_constant_series_empty_witness :
    3 ≤ ([3, 3, 3] : List ℚ).length ∧ popVar [3, 3, 3] = 0 ∧ (0 : ℚ) < 3 ∧
    z_score_anomalies sqrtZero [3, 3, 3] 3 = [] :=
  ⟨by decide, by with_unfolding_all decide, by norm_num,
    C7_constant_series_empty sqrtZero [3, 3, 3] 3 (by decide)
      (by with_unfolding_all decide) (by norm_num)⟩

/-- C8: each detector returns the empty finding set when the series is
shorter than its minimum length (3 for Z-Score, 5 for IQR, the window
size for Rolling-Deviation); in the embedding the detectors are total
functions, so no error is possible. -/
theorem C8_short_series_empty (sqrtFn : ℚ → ℚ) (t : ℚ) (s : List ℚ) (w : ℕ) :
    (s.length < 3 → z_score_anomalies sqrtFn s t = []) ∧
    (s.length < 5 → iqr_outliers s = []) ∧
    (s.length < w → rolling_average_deviation s w = []) := by
  refine ⟨fun h => ?_, fun h => ?_, fun h => ?_⟩
  · unfold z_score_anomalies
    rw [if_pos h]
  · unfold iqr_outliers
    rw [if_pos h]
  · unfold rolling_average_deviation
    rw [if_pos h]

theorem C8_short_series_empty_witness :
    (([1] : List ℚ).length < 3 ∧ z_score_anomalies sqrtZero [1] 3 = []) ∧
    (([1] : List ℚ).length < 5 ∧ iqr_outliers [1] = []) ∧
    (([1] : List ℚ).length < 30 ∧ rolling_average_deviation [1] 30 = []) :=
  ⟨⟨by decide, (C8_short_series_empty sqrtZero 3 [1] 30).1 (by decide)⟩,
    ⟨by decide, (C8_short_series_empty sqrtZero 3 [1] 30).2.1 (by decide)⟩,
    ⟨by decide, (C8_short_series_empty sqrtZero 3 [1] 30).2.2 (by decide)⟩⟩

/-- C10: when the series length equals the window size the
Rolling-Deviation detector's length precondition passes but every
position is skipped (`index[window:]` is empty), so the result is
empty; the detector can produce a finding only when the series has at
least `window + 1` points. -/
theorem C10_window_length_empty (s : List ℚ) (w : ℕ) :
    (s.length = w → rolling_average_deviation s w = []) ∧
    (rolling_average_deviation s w ≠ [] → w + 1 ≤ s.length) := by
  have hpart : s.length ≤ w → rolling_average_deviation s w = [] := by
    intro h
    by_cases hlt : s.length < w
    · unfold rolling_average_deviation
      rw [if_pos hlt]
    · unfold rolling_average_deviation
      rw [if_neg hlt]
      rw [List.filterMap_eq_nil_iff]
      intro p hp
      have hpw : p.1 < w := by
        rw [List.mem_enum_iff_getElem?] at hp
        obtain ⟨h1, -⟩ := List.getElem?_eq_some_iff.mp hp
        omega
      show (if p.1 < w then none else _) = none
      rw [if_pos hpw]
  constructor
  · intro h
    exact hpart (le_of_eq h)
  · intro hne
    by_contra hc
    push_neg at hc
    exact hne (hpart (by omega))

theorem C10_window_length_empty_witness :
    ([1, 2] : List ℚ).length = 2 ∧ rolling_average_deviation [1, 2] 2 = [] :=
  ⟨rfl, (C10_window_length_empty [1, 2] 2).1 rfl⟩

theorem anomalyReportOn_nil (sqrtFn : ℚ → ℚ) : anomalyReportOn sqrtFn [] = [] := rfl

theorem report_fetch_eq (sqrtFn : ℚ → ℚ) (provider : Partition → Except String (List ℚ))
    (p : Partition) :
    comprehensive_anomaly_report sqrtFn provider p
      = match provider p with
        | Except.ok s => anomalyReportOn sqrtFn s
        | Except.error _ => [] := by
  unfold comprehensive_anomaly_report get_time_series_data
  cases hp : provider p with
  | ok s =>
    simp only
    by_cases hs : s.isEmpty
    · rw [if_pos hs, List.isEmpty_iff.mp hs, anomalyReportOn_nil]
    · rw [if_neg hs]
  | error msg => rfl

theorem foldl_append_flatMap (sqrtFn : ℚ → ℚ)
    (provider : Partition → Except String (List ℚ)) :
    ∀ (parts : List Partition) (acc : List ValidatedAnomaly),
      parts.foldl (fun acc p => acc ++ comprehensive_anomaly_report sqrtFn provider p) acc
        = acc ++ parts.flatMap (fun p => comprehensive_anomaly_report sqrtFn provider p) := by
  intro parts
  induction parts with
  | nil => intro acc; simp
  | cons p ps ih =>
    intro acc
    rw [List.foldl_cons, ih, List.flatMap_cons, List.append_assoc]

/-- C9: over a multi-partition scan, a failing Provider fetch for one
partition is caught inside the fetch wrapper and that partition
contributes the empty result, while every other partition's report is
produced unchanged; the scan is a total function of the partition list
(no exception escapes). -/
theorem C9_partition_isolation (sqrtFn : ℚ → ℚ)
    (provider : Partition → Except String (List ℚ)) (parts : List Partition) :
    (detect_anomalies_daily sqrtFn provider parts
      = parts.flatMap (fun p =>
          match provider p with
          | Except.ok s => anomalyReportOn sqrtFn s
          | Except.error _ => [])) ∧
    (∀ p msg, provider p = Except.error msg →
      comprehensive_anomaly_report sqrtFn provider p = []) := by
  constructor
  · rw [detect_anomalies_daily, foldl_append_flatMap sqrtFn provider parts [],
      List.nil_append]
    have hfun : (fun p => comprehensive_anomaly_report sqrtFn provider p)
        = fun p => match provider p with
          | Except.ok s => anomalyReportOn sqrtFn s
          | Except.error _ => [] :=
      funext (fun p => report_fetch_eq sqrtFn provider p)
    rw [hfun]
  · intro p msg hp
    rw [report_fetch_eq, hp]

/-- Message used by the C9 witness's always-failing provider. -/
def dbDownMsg : String := "database unavailable"

/-- Provider that fails for every partition (models a broken fetch). -/
def failProvider : Partition → Except String (List ℚ) := fun _ => Except.error dbDownMsg

theorem C9_partition_isolation_witness :
    failProvider ⟨none, none⟩ = Except.error dbDownMsg ∧
    comprehensive_anomaly_report sqrtZero failProvider ⟨none, none⟩ = [] :=
  ⟨rfl, (C9_partition_isolation sqrtZero failProvider []).2 ⟨none, none⟩ dbDownMsg rfl⟩

/-- Series refuting C4 as stated: at position 30 the trailing window
(positions 1..30) sums to zero while the value there is 7. -/
def cex4Series : List ℚ := (0 : ℚ) :: (-7 : ℚ) :: (List.replicate 28 (0 : ℚ) ++ [7])

set_option maxRecDepth 8000 in
/-- C4 counterexample: the Rolling-Deviation detector flags a position
whose rolling mean is exactly zero, recording an infinite
`deviation_pct` (`7/0 = inf` and `inf > 0.5` holds in float
comparison), contradicting the claimed exclusion. -/
theorem C4_zero_mean_flagged_cex :
    ∃ f ∈ rolling_average_deviation cex4Series 30,
      f.rollingMean = 0 ∧ f.deviationPct = FVal.inf := by
  refine ⟨⟨30, 7, 0, FVal.inf⟩, ?_, rfl, rfl⟩
  with_unfolding_all decide

/-- C4 (amended): for series of nonnegative values — the domain of the
enrollment counts this detector is applied to — a zero rolling mean
forces the current value to be zero as well, the deviation is then NaN
and never exceeds the threshold, so such positions are excluded: every
emitted finding has a nonzero rolling mean and a finite deviation.
(With negative values in the series the original claim fails, see the
counterexample.) -/
theorem C4_zero_mean_excluded_nonneg (s : List ℚ) (w : ℕ) (hw : 0 < w)
    (hnn : ∀ x ∈ s, 0 ≤ x) :
    ∀ f ∈ rolling_average_deviation s w,
      f.rollingMean ≠ 0 ∧ f.deviationPct.isFiniteVal = true := by
  intro f hf
  obtain ⟨hlen, hwidx, hget, hm, hdev, hgt⟩ := mem_roll_iff.mp hf
  by_cases hm0 : f.rollingMean = 0
  · exfalso
    have hwcast : ((w : ℚ)) ≠ 0 := Nat.cast_ne_zero.mpr (by omega)
    have hsum : (((s.take (f.idx + 1)).drop (f.idx + 1 - w))).sum = 0 := by
      rw [hm] at hm0
      unfold windowMean at hm0
      rcases div_eq_zero_iff.mp hm0 with h | h
      · exact h
      · exact absurd h hwcast
    have hsub : ∀ x ∈ (s.take (f.idx + 1)).drop (f.idx + 1 - w), 0 ≤ x :=
      fun x hx => hnn x (List.mem_of_mem_take (List.mem_of_mem_drop hx))
    have hall := all_zero_of_sum_nonneg hsub hsum
    have hwin : ((s.take (f.idx + 1)).drop (f.idx + 1 - w))[w - 1]? = some f.value := by
      rw [List.getElem?_drop]
      have harith : f.idx + 1 - w + (w - 1) = f.idx := by omega
      rw [harith, List.getElem?_take, if_pos (by omega)]
      exact hget
    have hvmem : f.value ∈ (s.take (f.idx + 1)).drop (f.idx + 1 - w) := by
      obtain ⟨hlt, heq⟩ := List.getElem?_eq_some_iff.mp hwin
      exact heq ▸ List.getElem_mem hlt
    have hv0 : f.value = 0 := hall _ hvmem
    rw [hdev, hv0, hm0] at hgt
    simp [absDivExt, FVal.gtQ] at hgt
  · refine ⟨hm0, ?_⟩
    rw [hdev]
    unfold absDivExt
    rw [if_neg hm0]
    rfl

theorem C4_zero_mean_excluded_nonneg_witness :
    (0 < 2) ∧ (∀ x ∈ ([10, 10, 100] : List ℚ), 0 ≤ x) ∧
    (∀ f ∈ rolling_average_deviation [10, 10, 100] 2,
      f.rollingMean ≠ 0 ∧ f.deviationPct.isFiniteVal = true) :=
  ⟨by decide, by with_unfolding_all decide,
    C4_zero_mean_excluded_nonneg [10, 10, 100] 2 (by decide)
      (by with_unfolding_all decide)⟩

/-- Series refuting C6 as stated: 30 points of value 10 followed by
15.1.  With the mean over the preceding 30 points (spec reading) the
deviation at position 30 is 0.51 > 0.5, flagged; with the code's
window (which includes the current point) the mean is 10.17 and the
deviation is about 0.485, not flagged. -/
def cex6Series : List ℚ := List.replicate 30 (10 : ℚ) ++ [151 / 10]

set_option maxRecDepth 8000 in
/-- C6 counterexample: the detector does not compute the rolling mean
over the `window` points strictly preceding each position — on
`cex6Series` the code's output (empty) differs from the detector
transcribed from the spec's words (which flags position 30). -/
theorem C6_preceding_window_cex :
    rolling_average_deviation cex6Series 30 ≠ rollingDeviationSpec cex6Series 30 := by
  with_unfolding_all decide

/-- C6 (amended): the rolling mean at a position is the simple moving
average of the `window` points ending at and *including* that position
(pandas' trailing window); the first `window` positions are skipped and
never flagged (position `window - 1`, where the average is already
defined, is skipped too); a later position is flagged exactly when
`|value - rolling_mean| / rolling_mean` exceeds 0.5 under float
semantics. -/
theorem C6_rolling_characterisation (s : List ℚ) (w : ℕ) (f : RollFinding) :
    f ∈ rolling_average_deviation s w ↔
      (w ≤ s.length ∧ w ≤ f.idx ∧ s[f.idx]? = some f.value ∧
       f.rollingMean = windowMean s w f.idx ∧
       f.deviationPct = absDivExt (f.value - f.rollingMean) f.rollingMean ∧
       f.deviationPct.gtQ (1 / 2) = true) :=
  mem_roll_iff
